import Mathlib

/-!
Verification development for the logfmt2 log-line normalizer.

The source under scrutiny consists of `src/humantime.rs` (human-friendly
duration parser), `src/lib.rs` (typed value coercion, `From<&str> for
DataValue`) and `src/logfmt.rs` (the heuristic logfmt tokenizer
`parse_logfmt`).

Modelling conventions:
* A Rust `String`/`&str` is modelled as `List Char`; the byte offsets
  produced by Rust's `char_indices` are reproduced exactly through the
  UTF-8 size of each character (`csize`), so every index computation in
  the model matches the source byte for byte.
* Rust panics (e.g. `String::truncate`/`String::split_off` called off a
  char boundary or out of range) are modelled as `none` in an `Option`
  result: a `none` result of `parse_logfmt` means the Rust code aborts.
* `u64` arithmetic is modelled on `Nat` with explicit wrapping
  (`% 2^64`) where the source uses unchecked `+=`, and explicit
  saturation where the source uses an `as u64` float-to-int cast.
* The source performs the unit conversion of `add_unit` in `f64`
  arithmetic.  The model evaluates the same real-number expressions
  exactly, using integer numerator/denominator arithmetic; this
  coincides with the source whenever every intermediate value is exactly
  representable in `f64`, which holds for all concrete inputs evaluated
  in the theorems below.  Equally, the finite value of a parsed float
  (`DataValue::F64`) is modelled as the exact decimal rational written
  in the input rather than its nearest-`f64` approximation.
-/

namespace Logfmt2

/-! ### Byte positions and slicing -/

/-- UTF-8 byte size of a character (mirrors `Char::len_utf8`). -/
def csize (c : Char) : Nat :=
  if c.toNat < 0x80 then 1
  else if c.toNat < 0x800 then 2
  else if c.toNat < 0x10000 then 3
  else 4

/-- Byte length of a string (mirrors `str::len`). -/
def blen : List Char → Nat
  | [] => 0
  | c :: cs => csize c + blen cs

/-- The character iterator with byte offsets, starting at offset `k`
(mirrors `str::char_indices`). -/
def charIndicesFrom (k : Nat) : List Char → List (Nat × Char)
  | [] => []
  | c :: cs => (k, c) :: charIndicesFrom (k + csize c) cs

/-- Helper for `sliceBytes`: keep the characters whose byte offset
(starting from `k`) lies in `[a, b)`. -/
def sliceAux (a b : Nat) : Nat → List Char → List Char
  | _, [] => []
  | k, c :: cs =>
    if k < a then sliceAux a b (k + csize c) cs
    else if k < b then c :: sliceAux a b (k + csize c) cs
    else []

/-- Byte slice `line[a..b]` (mirrors Rust `&line[a..b]`; used only at
char-boundary offsets with `a ≤ b`, as in the source). -/
def sliceBytes (l : List Char) (a b : Nat) : List Char := sliceAux a b 0 l

/-- Prefix of a string up to byte offset `e` (used to model
`String::truncate`, only ever applied at char boundaries). -/
def takeBytes : List Char → Nat → List Char
  | _, 0 => []
  | [], _ => []
  | c :: cs, e + 1 => c :: takeBytes cs (e + 1 - csize c)

/-- Suffix of a string from byte offset `a` (used to model
`String::split_off`, only ever applied at char boundaries). -/
def dropBytes : List Char → Nat → List Char
  | l, 0 => l
  | [], _ => []
  | c :: cs, e + 1 => dropBytes cs (e + 1 - csize c)

/-- Helper for `isBoundary`. -/
def isBoundaryAux (a : Nat) : Nat → List Char → Bool
  | k, [] => a == k
  | k, c :: cs => a == k || isBoundaryAux a (k + csize c) cs

/-- `a` is a char boundary of `l` (mirrors `str::is_char_boundary`,
including `a = blen l`; offsets beyond the end are not boundaries). -/
def isBoundary (l : List Char) (a : Nat) : Bool := isBoundaryAux a 0 l

/-- Model of `String::truncate(e)`: no-op when `e ≥ len`; keeps the
prefix when `e` is a char boundary; otherwise the Rust code panics,
modelled as `none`. -/
def truncateStr (l : List Char) (e : Nat) : Option (List Char) :=
  if blen l ≤ e then some l
  else if isBoundary l e then some (takeBytes l e) else none

/-- Model of `s = s.split_off(a)` keeping the tail: defined when `a` is
a char boundary not beyond the end, otherwise the Rust code panics,
modelled as `none`. -/
def splitOffStr (l : List Char) (a : Nat) : Option (List Char) :=
  if isBoundary l a then some (dropBytes l a) else none

/-! ### The duration parser (`src/humantime.rs`) -/

/-- Largest `u64` value. -/
def u64Max : Nat := 18446744073709551615

/-- Error type of the duration parser (mirrors `humantime::Error`). -/
inductive Error where
  | InvalidCharacter (off : Nat)
  | NumberExpected (off : Nat)
  | UnknownUnit (unit : List Char) (value : Nat)
  | NumberOverflow
  | Empty
deriving DecidableEq, Repr

/-- One step of checked digit accumulation:
`n.checked_mul(10).and_then(|x| x.checked_add(c))`.  The combined
check `n * 10 + c ≤ u64Max` is equivalent because the digit `c < 10`
cannot overflow alone when `n * 10` does not. -/
def accDigit (n c : Nat) : Except Error Nat :=
  if n * 10 + c ≤ u64Max then .ok (n * 10 + c) else .error .NumberOverflow

/-- Rust `char::is_whitespace` (the Unicode `White_Space` property). -/
def isWhitespaceChar (c : Char) : Bool :=
  (0x09 ≤ c.toNat && c.toNat ≤ 0x0D) || c.toNat = 0x20 || c.toNat = 0x85 ||
  c.toNat = 0xA0 || c.toNat = 0x1680 ||
  (0x2000 ≤ c.toNat && c.toNat ≤ 0x200A) ||
  c.toNat = 0x2028 || c.toNat = 0x2029 || c.toNat = 0x202F ||
  c.toNat = 0x205F || c.toNat = 0x3000

/-- The inner fractional-digit loop of `Parser::parse` (the `'.'` match
arm): accumulate digits into `d` while the peeked character is a digit.
Exhausting the iterator returns an empty remainder; a non-digit peek
leaves that character unconsumed (the `break 'outer`). -/
def scanFrac (d : Nat) : List (Nat × Char) → Except Error (Nat × List (Nat × Char))
  | [] => .ok (d, [])
  | (i, c) :: rest =>
    if c.isDigit then
      match accDigit d (c.toNat - '0'.toNat) with
      | .ok d' => scanFrac d' rest
      | .error e => .error e
    else .ok (d, (i, c) :: rest)

/-- The `'outer` number loop of `Parser::parse`: digits accumulate into
`n`, a `'.'` switches to the fractional loop (whose non-digit peek ends
the number scan), whitespace is skipped, and any other character fails
with `InvalidCharacter` at its byte offset. -/
def numScan (n d : Nat) : List (Nat × Char) → Except Error (Nat × Nat × List (Nat × Char))
  | [] => .ok (n, d, [])
  | (i, c) :: rest =>
    if c.isDigit then
      match accDigit n (c.toNat - '0'.toNat) with
      | .ok n' => numScan n' d rest
      | .error e => .error e
    else if c = '.' then
      match scanFrac d rest with
      | .ok (d', rest') => .ok (n, d', rest')
      | .error e => .error e
    else if isWhitespaceChar c then numScan n d rest
    else .error (.InvalidCharacter i)

/-- Rust `char::is_ascii_alphabetic`. -/
def isAsciiAlphabetic (c : Char) : Bool :=
  ('a' ≤ c && c ≤ 'z') || ('A' ≤ c && c ≤ 'Z')

/-- The unit loop of `Parser::parse`: every remaining character must be
ASCII-alphabetic, otherwise `InvalidCharacter` at its byte offset.  The
loop always consumes the iterator to the end of the string. -/
def checkAlpha : List (Nat × Char) → Except Error Unit
  | [] => .ok ()
  | (i, c) :: rest =>
    if isAsciiAlphabetic c then checkAlpha rest
    else .error (.InvalidCharacter i)

/-- The unit table of `Parser::add_unit` (the `let unit = match unit`
expression), as a multiplier in seconds given by an exact fraction
`(numerator, denominator)`.  The source builds these values as `f64`
literals (`1e-9`, …, `31_557_600.`); every multiplier is modelled by the
exact rational the literal denotes. -/
def unitMultiplier (u : List Char) : Option (Nat × Nat) :=
  if u = "nanos".toList ∨ u = "nsec".toList ∨ u = "ns".toList then some (1, 1000000000)
  else if u = "usec".toList ∨ u = "us".toList ∨ u = "µs".toList then some (1, 1000000)
  else if u = "millis".toList ∨ u = "msec".toList ∨ u = "ms".toList then some (1, 1000)
  else if u = "seconds".toList ∨ u = "second".toList ∨ u = "secs".toList ∨
      u = "sec".toList ∨ u = "s".toList then some (1, 1)
  else if u = "minutes".toList ∨ u = "minute".toList ∨ u = "min".toList ∨
      u = "mins".toList ∨ u = "m".toList then some (60, 1)
  else if u = "hours".toList ∨ u = "hour".toList ∨ u = "hr".toList ∨
      u = "hrs".toList ∨ u = "h".toList then some (3600, 1)
  else if u = "days".toList ∨ u = "day".toList ∨ u = "d".toList then some (86400, 1)
  else if u = "weeks".toList ∨ u = "week".toList ∨ u = "w".toList then some (86400 * 7, 1)
  else if u = "months".toList ∨ u = "month".toList ∨ u = "M".toList then some (2630016, 1)
  else if u = "years".toList ∨ u = "year".toList ∨ u = "y".toList then some (31557600, 1)
  else none

/-- Helper for `decLen` (structural recursion on a fuel argument). -/
def decLenAux : Nat → Nat → Nat
  | 0, _ => 1
  | f + 1, n => if n < 10 then 1 else decLenAux f (n / 10) + 1

/-- `d.to_string().len()` for a `u64` value: its number of decimal
digits (`1` for `0`). -/
def decLen (n : Nat) : Nat := decLenAux n n

/-- `Parser::add_unit`: look the unit up (unknown units fail with
`UnknownUnit`), combine integer and fractional part as
`n + d / 10^(decimal length of d)`, multiply by the unit, and
accumulate floor seconds and rounded remainder nanoseconds into the
running state with plain (wrapping) `u64` addition.  Note the source
performs no overflow checking here.

The source computes in `f64`:
`sec = mult * (n + d / 10^places)`; `sec as u64` truncates toward zero
saturating at `u64::MAX`; `(sec.fract() * 1e9).round() as u64` rounds
half away from zero (here: half up, the value is non-negative) and
saturates.  With the exact fraction `sec = secNum / secDen` these are
`secNum / secDen` (integer division), and
`⌊fract * 1e9 + 1/2⌋ = (2 * (secNum % secDen) * 1e9 + secDen) / (2 * secDen)`. -/
def addUnit (n d : Nat) (unit : List Char) (st : Nat × Nat) : Except Error (Nat × Nat) :=
  match unitMultiplier unit with
  | none => .error (.UnknownUnit unit n)
  | some (a, b) =>
    let places := decLen d
    let secNum := a * (n * 10 ^ places + d)
    let secDen := b * 10 ^ places
    let secU := min (secNum / secDen) u64Max
    let ns := min ((2 * (secNum % secDen) * 1000000000 + secDen) / (2 * secDen)) u64Max
    .ok ((st.1 + secU) % 18446744073709551616, (st.2 + ns) % 18446744073709551616)

/-- The parsed duration: whole seconds and sub-second nanoseconds
(mirrors `std::time::Duration`). -/
structure Duration where
  secs : Nat
  nanos : Nat
deriving DecidableEq, Repr

/-- `Duration::new(secs, nanos)`: nanoseconds at or above one billion
carry into the seconds (the carry-overflow panic of `Duration::new` is
not reachable from `parseDuration` on inputs whose arithmetic is
`f64`-exact and is not modelled). -/
def durationNew (secs nanos : Nat) : Duration :=
  { secs := secs + nanos / 1000000000, nanos := nanos % 1000000000 }

/-- `parse_duration` / `Parser::parse`.  The source wraps the body in
`loop { ... if ch.peek().is_none() { break; } }`, but the unit loop
(`checkAlpha`) either consumes the iterator to the end of the string or
fails, so the loop body runs exactly once; the model is therefore
straight-line.  `start` is the byte offset of the peeked character after
the number scan (`Empty` when the input is exhausted), and the unit
slice always extends to the end of the string.  The final
`Duration::new(current.0, current.1 as u32)` truncates the nanosecond
total to 32 bits. -/
def parseDuration (s : List Char) : Except Error Duration :=
  match numScan 0 0 (charIndicesFrom 0 s) with
  | .error e => .error e
  | .ok (n, d, it) =>
    match it with
    | [] => .error .Empty
    | (start, _) :: _ =>
      match checkAlpha it with
      | .error e => .error e
      | .ok _ =>
        match addUnit n d (sliceBytes s start (blen s)) (0, 0) with
        | .error e => .error e
        | .ok st => .ok (durationNew st.1 (st.2 % 4294967296))

/-! ### The value coercer (`impl From<&str> for DataValue` in `src/lib.rs`) -/

/-- Decimal value of a digit string. -/
def natOfDigits (cs : List Char) : Nat :=
  cs.foldl (fun a c => a * 10 + (c.toNat - '0'.toNat)) 0

/-- A non-empty all-digit string and its value, else `none`. -/
def digitsVal (cs : List Char) : Option Nat :=
  match cs with
  | [] => none
  | _ =>
    if cs.all Char.isDigit then some (natOfDigits cs) else none

/-- Rust `str::parse::<i64>`: an optional single sign followed by one or
more digits, consuming the whole string; out-of-range values fail. -/
def parseI64 (s : List Char) : Option Int :=
  match s with
  | '+' :: rest => (digitsVal rest).bind fun v =>
      if v ≤ 9223372036854775807 then some ((v : Int)) else none
  | '-' :: rest => (digitsVal rest).bind fun v =>
      if v ≤ 9223372036854775808 then some (-(v : Int)) else none
  | rest => (digitsVal rest).bind fun v =>
      if v ≤ 9223372036854775807 then some ((v : Int)) else none

/-- The value of a successfully parsed `f64`.  A finite value
`num i s` denotes `i / 10^s`, the exact decimal rational written in the
input (the source stores the nearest `f64`; the classification
behaviour, which is all the tokenizer depends on, is unaffected). -/
inductive FloatVal where
  | num (i : Int) (s : Nat)
  | inf
  | negInf
  | nan
deriving DecidableEq, Repr

/-- Split a float literal at the first exponent marker `e`/`E`. -/
def splitAtExp : List Char → List Char × Option (List Char)
  | [] => ([], none)
  | c :: cs =>
    if c = 'e' ∨ c = 'E' then ([], some cs)
    else
      let r := splitAtExp cs
      (c :: r.1, r.2)

/-- Mantissa of a float literal: `Digits+ ('.' Digits*)? | '.' Digits+`.
Returns the combined digit value and the number of fractional digits. -/
def parseMantissa (s : List Char) : Option (Nat × Nat) :=
  let intPart := s.takeWhile Char.isDigit
  let rest := s.drop intPart.length
  match rest with
  | [] => if intPart = [] then none else some (natOfDigits intPart, 0)
  | '.' :: frac =>
    if frac.all Char.isDigit ∧ (intPart ≠ [] ∨ frac ≠ []) then
      some (natOfDigits (intPart ++ frac), frac.length)
    else none
  | _ => none

/-- Exponent of a float literal: an optional sign followed by one or
more digits. -/
def parseExp : List Char → Option Int
  | [] => none
  | '+' :: ds => (digitsVal ds).map Int.ofNat
  | '-' :: ds => (digitsVal ds).map fun v => -(v : Int)
  | ds => (digitsVal ds).map Int.ofNat

/-- Assemble a finite float value `± m / 10^fracLen * 10^e`. -/
def mkFloat (neg : Bool) (m fracLen : Nat) (e : Int) : FloatVal :=
  let sign : Int := if neg then -1 else 1
  let t : Int := e - fracLen
  if 0 ≤ t then .num (sign * m * 10 ^ t.toNat) 0
  else .num (sign * m) (-t).toNat

/-- Body of `str::parse::<f64>` after the optional sign:
case-insensitive `inf`/`infinity`/`nan`, or mantissa with optional
exponent. -/
def parseF64Core (s : List Char) (neg : Bool) : Option FloatVal :=
  let low := s.map Char.toLower
  if low = "inf".toList ∨ low = "infinity".toList then
    some (if neg then .negInf else .inf)
  else if low = "nan".toList then some .nan
  else
    let me := splitAtExp s
    match parseMantissa me.1 with
    | none => none
    | some (m, fl) =>
      match me.2 with
      | none => some (mkFloat neg m fl 0)
      | some es =>
        match parseExp es with
        | none => none
        | some e => some (mkFloat neg m fl e)

/-- Rust `str::parse::<f64>`: strict, the whole string must be
consumed. -/
def parseF64 (s : List Char) : Option FloatVal :=
  match s with
  | '+' :: rest => parseF64Core rest false
  | '-' :: rest => parseF64Core rest true
  | rest => parseF64Core rest false

/-- The typed value (`DataValue` in `src/lib.rs`): a closed tagged union
over string, 64-bit float, 64-bit signed integer and duration. -/
inductive DataValue where
  | String (s : List Char)
  | F64 (f : FloatVal)
  | I64 (i : Int)
  | Duration (d : Duration)
deriving DecidableEq, Repr

/-- `impl From<&str> for DataValue`: try a strict `i64` parse, then a
strict `f64` parse, then the duration parser; otherwise keep the string
verbatim.  First success wins. -/
def coerce (s : List Char) : DataValue :=
  match parseI64 s with
  | some i => .I64 i
  | none =>
    match parseF64 s with
    | some f => .F64 f
    | none =>
      match parseDuration s with
      | .ok d => .Duration d
      | .error _ => .String s

/-! ### The logfmt tokenizer (`parse_logfmt` in `src/logfmt.rs`) -/

/-- The literal severity words of the first match arm of phase 1. -/
def severityWords : List (List Char) :=
  ["INFO".toList, "WARN".toList, "WARNING".toList, "ERROR".toList,
   "DEBUG".toList, "TRACE".toList, "LOG".toList]

/-- State of the header-classification loop of `parse_logfmt`:
`level`/`name` as recorded so far, the message-start cursor
`log_message_start` and the token-start cursor `cur_token_idx`. -/
structure P1State where
  level : Option (List Char)
  name : Option (List Char)
  msgStart : Nat
  curToken : Nat
deriving DecidableEq, Repr

/-- The token classification of phase 1, run when a token ends at byte
offset `i` (a space, or a colon followed by a space): a severity word
records the level (only if none yet) and advances the message-start
cursor only when the token is contiguous with it; a token containing
`.` or `:` advances the cursor and records the logger name (only if
none yet) only when contiguous; any other token does nothing.  In every
case `cur_token_idx` moves past the delimiter. -/
def classify (line : List Char) (st : P1State) (i : Nat) : P1State :=
  let tok := sliceBytes line st.curToken i
  let st1 :=
    if tok ∈ severityWords then
      let lvl := if st.level = none then some tok else st.level
      if st.curToken = st.msgStart then
        { st with level := lvl, msgStart := i + 1 }
      else { st with level := lvl }
    else if tok.any (fun c => c = '.' ∨ c = ':') then
      if st.curToken = st.msgStart then
        { st with msgStart := i + 1,
                  name := if st.name = none then some tok else st.name }
      else st
    else st
  { st1 with curToken := i + 1 }

/-- Phase 1 of `parse_logfmt`: scan until a peeked `=` (left
unconsumed) or a consumed colon-space (which additionally bumps a
non-zero message start past the following space); classify each token
ending at a space or at a colon-space. -/
def phase1 (line : List Char) (st : P1State) :
    List (Nat × Char) → P1State × List (Nat × Char)
  | [] => (st, [])
  | (i, c) :: rest =>
    if c = '=' then (st, (i, c) :: rest)
    else
      let atColon := c = ':' && (match rest with
        | (_, c2) :: _ => c2 = ' '
        | [] => false)
      let st' := if c = ' ' || atColon then classify line st i else st
      if atColon then
        ({ st' with msgStart :=
            if 0 < st'.msgStart then st'.msgStart + 1 else st'.msgStart }, rest)
      else phase1 line st' rest

/-- The inner quoted-value loop of phase 2: a backslash skips the
following character without interpretation; an unescaped double quote
ends the value at its offset; exhausting the input leaves the end at
the default (the length of the line).  Returns the value start, the
value end and the remaining iterator. -/
def scanQuoted (cur dflt : Nat) :
    List (Nat × Char) → Nat × Nat × List (Nat × Char)
  | [] => (cur, dflt, [])
  | (i, c) :: rest =>
    if c = '\\' then
      match rest with
      | [] => (cur, dflt, [])
      | _ :: rest2 => scanQuoted cur dflt rest2
    else if c = '"' then (cur, i, rest)
    else scanQuoted cur dflt rest

/-- The outer value loop of phase 2 (`'outer` in the source): a space
ends the value at its offset; a double quote anywhere restarts the
value just past the quote and switches to the quoted loop; any other
character is inert.  Exhausting the input leaves the end at the default
(the length of the line). -/
def scanValue (cur dflt : Nat) :
    List (Nat × Char) → Nat × Nat × List (Nat × Char)
  | [] => (cur, dflt, [])
  | (i, c) :: rest =>
    if c = ' ' then (cur, i, rest)
    else if c = '"' then scanQuoted (i + 1) dflt rest
    else scanValue cur dflt rest

/-- `HashMap::insert`: a later insertion with the same key overwrites
the earlier entry (modelled on an association list). -/
def hmInsert (k : List Char) (v : DataValue) (m : List (List Char × DataValue)) :
    List (List Char × DataValue) :=
  (k, v) :: m.filter fun p => if p.1 = k then false else true

/-- State of phase 2 of `parse_logfmt`: the extracted data mapping, the
provisional message-end marker `log_message_end` and the token-start
cursor `cur_token_idx`. -/
structure P2State where
  data : List (List Char × DataValue)
  msgEnd : Option Nat
  curToken : Nat
deriving DecidableEq, Repr

/-- Phase 2 of `parse_logfmt`: a space clears the message-end marker
and moves the token cursor; an `=` sets the marker to one byte before
the token cursor (only when unset and the cursor is non-zero), reads
the key, scans the value (`scanValue`), coerces and inserts it, and
resumes after the value; every other character is inert.

The recursion is fed through a fuel argument so that the definition is
structural (and hence kernel-computable); `scanValue` never lengthens
the iterator, so any fuel that is at least the iterator length (as
supplied by `phase2`) makes the zero-fuel branch unreachable. -/
def phase2Fuel (line : List Char) : Nat → P2State → List (Nat × Char) → P2State
  | 0, st, _ => st
  | _, st, [] => st
  | f + 1, st, (i, c) :: rest =>
    if c = ' ' then
      phase2Fuel line f { st with msgEnd := none, curToken := i + 1 } rest
    else if c = '=' then
      let st1 := if st.msgEnd = none ∧ 0 < st.curToken then
          { st with msgEnd := some (st.curToken - 1) } else st
      let key := sliceBytes line st1.curToken i
      let r := scanValue (i + 1) (blen line) rest
      let value := sliceBytes line r.1 r.2.1
      phase2Fuel line f { data := hmInsert key (coerce value) st1.data,
                          msgEnd := st1.msgEnd, curToken := r.2.1 + 1 } r.2.2
    else phase2Fuel line f st rest

/-- Phase 2 of `parse_logfmt` (see `phase2Fuel`). -/
def phase2 (line : List Char) (st : P2State) (it : List (Nat × Char)) : P2State :=
  phase2Fuel line it.length st it

/-- The record produced by the tokenizer (the `Log` struct of
`src/lib.rs`; `dt`, `platform` and `extension` are always `None` in
`parse_logfmt`, `extension` is modelled as an always-`none` unit
option). -/
structure LogR where
  dt : Option (List Char)
  level : Option (List Char)
  name : Option (List Char)
  message : List Char
  platform : Option (List Char)
  ext : Option Unit
  data : List (List Char × DataValue)
deriving DecidableEq, Repr

/-- `parse_logfmt`: run phase 1 from byte 0, run phase 2 on the rest of
the iterator (inheriting `cur_token_idx`), then finalize: truncate the
line to the message-end marker when set, and split off the suffix at
the message-start cursor.  The Rust function signature is
`Result<Log>` but no error is ever returned; the `Option` models the
panics of `truncate`/`split_off` (a `none` is an abort, not an `Err`). -/
def parse_logfmt (l : List Char) : Option LogR :=
  let p1 := phase1 l { level := none, name := none, msgStart := 0, curToken := 0 }
      (charIndicesFrom 0 l)
  let st2 := phase2 l { data := [], msgEnd := none, curToken := p1.1.curToken } p1.2
  let l1 := match st2.msgEnd with
    | some e => truncateStr l e
    | none => some l
  match l1 with
  | none => none
  | some l2 =>
    match splitOffStr l2 p1.1.msgStart with
    | none => none
    | some msg =>
      some { dt := none, level := p1.1.level, name := p1.1.name, message := msg,
             platform := none, ext := none, data := st2.data }

deriving instance DecidableEq for Except

/-! ## Theorems -/

/-- C1: the spec promises that `parse_logfmt` is total and never fails
or aborts; in fact the finalization aborts on `"INFO x=1"`.  Phase 1
consumes the severity token and moves the message-start cursor to byte
5, phase 2 sets the message-end marker to byte 4 (just before the key
`x`), so the string is truncated to length 4 and `split_off(5)` panics
(5 is beyond the truncated string).  In the model the panic is the
`none` result. -/
theorem c1_tokenizer_panics : parse_logfmt ("INFO x=1".toList) = none := by decide

/-- C2: the claim (and the spec) say a digits-then-unit group with no
fractional part such as `"2h"` parses; in the code the number loop has
no arm for a unit letter, so `"2h"` fails with `InvalidCharacter` at
byte 1, while the same quantity written with a fractional part,
`"2.0h"`, parses to 7200 seconds. -/
theorem c2_unit_needs_fraction :
    parseDuration ("2h".toList) = .error (.InvalidCharacter 1) ∧
    parseDuration ("2.0h".toList) = .ok ⟨7200, 0⟩ := by decide

/-- C3: the claim says consecutive groups such as `"1h30m"` accumulate
additively; in the code the unit loop consumes to the end of the string
and rejects the first non-alphabetic character, so every multi-group
input fails: `"1h30m"` with `InvalidCharacter 1` (no fractional part)
and `"1.0h30.0m"` with `InvalidCharacter 4` (the digit after the first
unit). -/
theorem c3_multi_group_impossible :
    parseDuration ("1h30m".toList) = .error (.InvalidCharacter 1) ∧
    parseDuration ("1.0h30.0m".toList) = .error (.InvalidCharacter 4) := by decide

/-- C4: the value coercer is total by construction (`coerce` is a Lean
function) and tries integer, float, duration, string in order with
first success winning: `"7"` is the integer 7, `"3.14"` is the float
3.14 (the exact decimal 314/10^2), `"100.32ms"` is the duration
100 ms + 320 µs, and `"America/Chicago"` stays a string. -/
theorem c4_coercion_order :
    coerce ("7".toList) = .I64 7 ∧
    coerce ("3.14".toList) = .F64 (.num 314 2) ∧
    coerce ("100.32ms".toList) = .Duration ⟨0, 100320000⟩ ∧
    coerce ("America/Chicago".toList) = .String ("America/Chicago".toList) := by decide

/-- C6: the claim says `Empty` is returned exactly for blank or
whitespace-only input; the code also returns `Empty` for `"5"` (the
number scan exhausts the input before any unit token), contradicting
the doc comment of `Error::Empty` in the source. -/
theorem c6_empty_beyond_blank :
    parseDuration ("5".toList) = .error .Empty ∧
    parseDuration ("".toList) = .error .Empty ∧
    parseDuration (" ".toList) = .error .Empty := by decide

/-- C7: the claim says overflow in the unit multiplication/addition
fails with `NumberOverflow`; in the code `add_unit` performs no checked
arithmetic (the `OverflowOp` impl is unused), so
`"18446744073709551615.0y"`, whose seconds total vastly exceeds
`u64::MAX`, silently saturates to `u64::MAX` seconds and succeeds.
Digit accumulation, by contrast, is checked:
`"99999999999999999999s"` fails with `NumberOverflow`. -/
theorem c7_unit_overflow_saturates :
    parseDuration ("18446744073709551615.0y".toList) = .ok ⟨18446744073709551615, 0⟩ ∧
    parseDuration ("99999999999999999999s".toList) = .error .NumberOverflow := by decide

/-- C5 (counterexample): the claim says quote mode applies only when
the first character after `=` is a double quote, and otherwise the
value runs to the next unescaped space.  For `k=a"b c"` the first
character after `=` is `a`, so per the claim the value would be `a"b`;
the code switches to quote mode at the quote in the middle and stores
`b c`. -/
theorem c5_quote_anywhere :
    parse_logfmt ("k=a\"b c\"".toList) =
      some { dt := none, level := none, name := none,
             message := "k=a\"b c\"".toList, platform := none, ext := none,
             data := [("k".toList, .String ("b c".toList))] } := by decide

/-- C9 (counterexample): the claim says the residual message extends to
the end of the string if and only if no key/value pair was found.  On
`"a=1 b"` the pair `a=1` is extracted (the marker is never set because
the key starts at byte 0, and is not set by the later `=`-free text),
yet the message is the entire input. -/
theorem c9_message_to_end_with_pair :
    parse_logfmt ("a=1 b".toList) =
      some { dt := none, level := none, name := none,
             message := "a=1 b".toList, platform := none, ext := none,
             data := [("a".toList, .I64 1)] } := by decide

/-- C8 (counterexample): the claim says re-tokenizing a residual
message with no `=` is a no-op.  Tokenizing `"a.b: INFO yes mate"`
leaves the residual message `"INFO yes mate"` (no `=` in it), but
re-tokenizing that residual strips the severity token again and yields
`"yes mate"`, not the same string (the data mapping is empty both
times). -/
theorem c8_retokenize_shrinks :
    parse_logfmt ("a.b: INFO yes mate".toList) =
      some { dt := none, level := none, name := some ("a.b".toList),
             message := "INFO yes mate".toList, platform := none, ext := none,
             data := [] } ∧
    parse_logfmt ("INFO yes mate".toList) =
      some { dt := none, level := some ("INFO".toList), name := none,
             message := "yes mate".toList, platform := none, ext := none,
             data := [] } := by decide

/-! ### Scanner lemmas shared by the universal theorems -/

theorem mem_charIndicesFrom {p : Nat × Char} :
    ∀ {k : Nat} {l : List Char}, p ∈ charIndicesFrom k l → p.2 ∈ l := by
  intro k l
  induction l generalizing k with
  | nil => intro h; simp [charIndicesFrom] at h
  | cons c cs ih =>
    intro h
    simp only [charIndicesFrom, List.mem_cons] at h
    rcases h with h | h
    · simp [h]
    · exact List.mem_cons_of_mem _ (ih h)

theorem phase1_suffix (line : List Char) :
    ∀ (it : List (Nat × Char)) (st : P1State), (phase1 line st it).2 <:+ it := by
  intro it
  induction it with
  | nil => intro st; simp [phase1]
  | cons p rest ih =>
    intro st
    obtain ⟨i, c⟩ := p
    simp only [phase1]
    split
    · exact List.suffix_refl _
    · split
      · exact List.suffix_cons _ _
      · exact (ih _).trans (List.suffix_cons _ _)

theorem phase2Fuel_no_eq (line : List Char) :
    ∀ (f : Nat) (it : List (Nat × Char)) (st : P2State),
      (∀ p ∈ it, p.2 ≠ '=') → st.msgEnd = none →
      (phase2Fuel line f st it).data = st.data ∧
        (phase2Fuel line f st it).msgEnd = none := by
  intro f
  induction f with
  | zero => intro it st _ hE; cases it <;> simp [phase2Fuel, hE]
  | succ f ih =>
    intro it st hne hE
    cases it with
    | nil => simp [phase2Fuel, hE]
    | cons p rest =>
      obtain ⟨i, c⟩ := p
      have hc : c ≠ '=' := hne (i, c) (List.mem_cons_self _ _)
      have hne' : ∀ p ∈ rest, p.2 ≠ '=' := fun p hp => hne p (List.mem_cons_of_mem _ hp)
      by_cases hsp : c = ' '
      · simp only [phase2Fuel, if_pos hsp]
        exact ih rest _ hne' rfl
      · simp only [phase2Fuel, if_neg hsp, if_neg hc]
        exact ih rest st hne' hE

theorem phase2Fuel_data_ne (line : List Char) :
    ∀ (f : Nat) (it : List (Nat × Char)) (st : P2State),
      st.data ≠ [] → (phase2Fuel line f st it).data ≠ [] := by
  intro f
  induction f with
  | zero => intro it st h; cases it <;> simpa [phase2Fuel] using h
  | succ f ih =>
    intro it st h
    cases it with
    | nil => simpa [phase2Fuel] using h
    | cons p rest =>
      obtain ⟨i, c⟩ := p
      by_cases hsp : c = ' '
      · simp only [phase2Fuel, if_pos hsp]
        exact ih rest _ h
      · by_cases heq : c = '='
        · simp only [phase2Fuel, if_neg hsp, if_pos heq]
          apply ih
          simp [hmInsert]
        · simp only [phase2Fuel, if_neg hsp, if_neg heq]
          exact ih rest st h

theorem phase2Fuel_data_nil (line : List Char) :
    ∀ (f : Nat) (it : List (Nat × Char)) (st : P2State),
      st.msgEnd = none → (phase2Fuel line f st it).data = [] →
      (phase2Fuel line f st it).msgEnd = none := by
  intro f
  induction f with
  | zero => intro it st hE _; cases it <;> simpa [phase2Fuel] using hE
  | succ f ih =>
    intro it st hE hd
    cases it with
    | nil => simpa [phase2Fuel] using hE
    | cons p rest =>
      obtain ⟨i, c⟩ := p
      by_cases hsp : c = ' '
      · simp only [phase2Fuel, if_pos hsp] at hd ⊢
        exact ih rest _ rfl hd
      · by_cases heq : c = '='
        · simp only [phase2Fuel, if_neg hsp, if_pos heq] at hd
          exact absurd hd (phase2Fuel_data_ne line f _ _ (by simp [hmInsert]))
        · simp only [phase2Fuel, if_neg hsp, if_neg heq] at hd ⊢
          exact ih rest st hE hd

/-- `phase2_no_eq` restated for `phase2`. -/
theorem phase2_no_eq (line : List Char) (it : List (Nat × Char)) (st : P2State)
    (hne : ∀ p ∈ it, p.2 ≠ '=') (hE : st.msgEnd = none) :
    (phase2 line st it).data = st.data ∧ (phase2 line st it).msgEnd = none :=
  phase2Fuel_no_eq line it.length it st hne hE

/-- `phase2Fuel_data_nil` restated for `phase2`. -/
theorem phase2_data_nil (line : List Char) (it : List (Nat × Char)) (st : P2State)
    (hE : st.msgEnd = none) (hd : (phase2 line st it).data = []) :
    (phase2 line st it).msgEnd = none :=
  phase2Fuel_data_nil line it.length it st hE hd

theorem dropBytes_suffix : ∀ (l : List Char) (a : Nat), dropBytes l a <:+ l := by
  intro l
  induction l with
  | nil => intro a; cases a <;> simp [dropBytes]
  | cons c cs ih =>
    intro a
    cases a with
    | zero => simp [dropBytes]
    | succ a => exact (ih _).trans (List.suffix_cons _ _)

/-- C8 (amended): re-tokenizing a string with no `=` always yields an
empty data mapping, and the residual message of that run is a suffix of
the input (it can be a proper suffix: leading severity or logger-name
tokens are stripped again, as the counterexample shows). -/
theorem c8_no_eq_retokenize (m : List Char) (r : LogR) (hne : '=' ∉ m)
    (h : parse_logfmt m = some r) : r.data = [] ∧ r.message <:+ m := by
  simp only [parse_logfmt] at h
  have hall : ∀ p ∈ (phase1 m { level := none, name := none, msgStart := 0, curToken := 0 }
      (charIndicesFrom 0 m)).2, p.2 ≠ '=' := by
    intro p hp hc
    have hsub : p ∈ charIndicesFrom 0 m := (phase1_suffix m _ _).subset hp
    exact hne (hc ▸ mem_charIndicesFrom hsub)
  have h2 := phase2_no_eq m
    (phase1 m { level := none, name := none, msgStart := 0, curToken := 0 }
      (charIndicesFrom 0 m)).2
    { data := [], msgEnd := none,
      curToken := (phase1 m { level := none, name := none, msgStart := 0, curToken := 0 }
        (charIndicesFrom 0 m)).1.curToken } hall rfl
  rw [h2.2] at h
  simp only [splitOffStr] at h
  split at h
  · exact absurd h (by simp)
  · rename_i es hes
    rw [Option.some_inj] at h
    subst h
    refine ⟨h2.1, ?_⟩
    split at hes
    · rw [Option.some_inj] at hes
      exact hes ▸ dropBytes_suffix m _
    · exact absurd hes (by simp)

/-- C9 (amended): the residual message is the slice from the
message-start cursor to the message-end marker, or to the end of the
string when the marker is unset; when no key/value pair was found the
marker stays unset and the message extends to the end of the input (a
suffix of it).  The converse direction of the claim fails: the marker
can stay unset even though a pair was extracted (see the
counterexample). -/
theorem c9_no_pair_message_to_end (l : List Char) (r : LogR)
    (h : parse_logfmt l = some r) (hd : r.data = []) : r.message <:+ l := by
  simp only [parse_logfmt] at h
  rcases hE : (phase2 l
      { data := [], msgEnd := none,
        curToken := (phase1 l { level := none, name := none, msgStart := 0, curToken := 0 }
          (charIndicesFrom 0 l)).1.curToken }
      (phase1 l { level := none, name := none, msgStart := 0, curToken := 0 }
        (charIndicesFrom 0 l)).2).msgEnd with _ | e
  · rw [hE] at h
    simp only [splitOffStr] at h
    split at h
    · exact absurd h (by simp)
    · rename_i es hes
      rw [Option.some_inj] at h
      subst h
      split at hes
      · rw [Option.some_inj] at hes
        exact hes ▸ dropBytes_suffix l _
      · exact absurd hes (by simp)
  · rw [hE] at h
    rcases hT : truncateStr l e with _ | l2
    · simp only [hT] at h
      exact absurd h (by simp)
    · simp only [hT, splitOffStr] at h
      split at h
      · exact absurd h (by simp)
      · rw [Option.some_inj] at h
        subst h
        simp only at hd
        have := phase2_data_nil l _ _ rfl hd
        rw [this] at hE
        cases hE

/-- Witness for `c8_no_eq_retokenize` at the input `"x y"`. -/
theorem c8_no_eq_retokenize_witness :
    ('=' ∉ "x y".toList) ∧
    (({ dt := none, level := none, name := none, message := "x y".toList,
          platform := none, ext := none, data := [] } : LogR).data = [] ∧
      ({ dt := none, level := none, name := none, message := "x y".toList,
          platform := none, ext := none, data := [] } : LogR).message <:+ "x y".toList) :=
  ⟨by decide, c8_no_eq_retokenize ("x y".toList) _ (by decide) (by decide)⟩

/-- Witness for `c9_no_pair_message_to_end` at the input `"hello"`. -/
theorem c9_no_pair_message_to_end_witness :
    (parse_logfmt ("hello".toList) =
      some { dt := none, level := none, name := none, message := "hello".toList,
             platform := none, ext := none, data := [] }) ∧
    ({ dt := none, level := none, name := none, message := "hello".toList,
        platform := none, ext := none, data := [] } : LogR).message <:+ "hello".toList :=
  ⟨by decide, c9_no_pair_message_to_end ("hello".toList) _ (by decide) (by decide)⟩

/-! ### Value-scanner lemmas (phase 2 of the tokenizer) -/

theorem charIndicesFrom_cons (k : Nat) (c : Char) (cs : List Char) :
    charIndicesFrom k (c :: cs) = (k, c) :: charIndicesFrom (k + csize c) cs := rfl

theorem scanQuoted_cons (cur dflt i : Nat) (c : Char) (rest : List (Nat × Char)) :
    scanQuoted cur dflt ((i, c) :: rest) =
      if c = '\\' then
        match rest with
        | [] => (cur, dflt, [])
        | _ :: rest2 => scanQuoted cur dflt rest2
      else if c = '"' then (cur, i, rest)
      else scanQuoted cur dflt rest := by
  rw [scanQuoted.eq_def]

theorem scanValue_cons (cur dflt i : Nat) (c : Char) (rest : List (Nat × Char)) :
    scanValue cur dflt ((i, c) :: rest) =
      if c = ' ' then (cur, i, rest)
      else if c = '"' then scanQuoted (i + 1) dflt rest
      else scanValue cur dflt rest := by
  rw [scanValue.eq_def]

theorem scanQuoted_escape (c : Char) (cs : List Char) (cur dflt k : Nat) :
    scanQuoted cur dflt (charIndicesFrom k ('\\' :: c :: cs)) =
      scanQuoted cur dflt (charIndicesFrom (k + 1 + csize c) cs) := by
  have h1 : csize '\\' = 1 := by decide
  rw [charIndicesFrom_cons, charIndicesFrom_cons, scanQuoted_cons, if_pos rfl, h1]

theorem scanQuoted_body (body cs : List Char) (cur dflt k : Nat)
    (h : ∀ c ∈ body, c ≠ '"' ∧ c ≠ '\\') :
    scanQuoted cur dflt (charIndicesFrom k (body ++ '"' :: cs)) =
      (cur, k + blen body, charIndicesFrom (k + blen body + 1) cs) := by
  induction body generalizing k with
  | nil =>
    have h1 : csize '"' = 1 := by decide
    rw [List.nil_append, charIndicesFrom_cons, scanQuoted_cons,
      if_neg (by decide), if_pos rfl, h1]
    simp [blen]
  | cons c body ih =>
    have hc := h c (List.mem_cons_self _ _)
    rw [List.cons_append, charIndicesFrom_cons, scanQuoted_cons, if_neg hc.2, if_neg hc.1,
      ih _ (fun x hx => (h x (List.mem_cons_of_mem _ hx)))]
    simp [blen, Nat.add_assoc]

theorem scanValue_unquoted (pre cs : List Char) (cur dflt k : Nat)
    (h : ∀ c ∈ pre, c ≠ ' ' ∧ c ≠ '"') :
    scanValue cur dflt (charIndicesFrom k (pre ++ ' ' :: cs)) =
      (cur, k + blen pre, charIndicesFrom (k + blen pre + 1) cs) := by
  induction pre generalizing k with
  | nil =>
    have h1 : csize ' ' = 1 := by decide
    rw [List.nil_append, charIndicesFrom_cons, scanValue_cons, if_pos rfl, h1]
    simp [blen]
  | cons c pre ih =>
    have hc := h c (List.mem_cons_self _ _)
    rw [List.cons_append, charIndicesFrom_cons, scanValue_cons, if_neg hc.1, if_neg hc.2,
      ih _ (fun x hx => (h x (List.mem_cons_of_mem _ hx)))]
    simp [blen, Nat.add_assoc]

theorem scanValue_quote (pre cs : List Char) (cur dflt k : Nat)
    (h : ∀ c ∈ pre, c ≠ ' ' ∧ c ≠ '"') :
    scanValue cur dflt (charIndicesFrom k (pre ++ '"' :: cs)) =
      scanQuoted (k + blen pre + 1) dflt (charIndicesFrom (k + blen pre + 1) cs) := by
  induction pre generalizing k with
  | nil =>
    have h1 : csize '"' = 1 := by decide
    rw [List.nil_append, charIndicesFrom_cons, scanValue_cons, if_neg (by decide),
      if_pos rfl, h1]
    simp [blen]
  | cons c pre ih =>
    have hc := h c (List.mem_cons_self _ _)
    rw [List.cons_append, charIndicesFrom_cons, scanValue_cons, if_neg hc.1, if_neg hc.2,
      ih _ (fun x hx => (h x (List.mem_cons_of_mem _ hx)))]
    simp [blen, Nat.add_assoc]

/-- C5 (amended): after `=`, the value scan runs to the next space with
no escape processing (conjunct 1); but a double quote anywhere before
that space — not only as the first character — switches to quote mode,
restarting the value just after that quote (conjunct 2); the quoted
value is the raw bytes strictly between the quote and the next
unescaped double quote (conjunct 3), where a backslash skips the
following character without interpretation (conjunct 4) and the stored
value keeps the backslash, not unescaped (conjunct 5, `k="a\x"` stores
`a\x`). -/
theorem c5_value_reading :
    (∀ (pre cs : List Char) (cur dflt k : Nat),
      (∀ c ∈ pre, c ≠ ' ' ∧ c ≠ '"') →
      scanValue cur dflt (charIndicesFrom k (pre ++ ' ' :: cs)) =
        (cur, k + blen pre, charIndicesFrom (k + blen pre + 1) cs)) ∧
    (∀ (pre cs : List Char) (cur dflt k : Nat),
      (∀ c ∈ pre, c ≠ ' ' ∧ c ≠ '"') →
      scanValue cur dflt (charIndicesFrom k (pre ++ '"' :: cs)) =
        scanQuoted (k + blen pre + 1) dflt (charIndicesFrom (k + blen pre + 1) cs)) ∧
    (∀ (body cs : List Char) (cur dflt k : Nat),
      (∀ c ∈ body, c ≠ '"' ∧ c ≠ '\\') →
      scanQuoted cur dflt (charIndicesFrom k (body ++ '"' :: cs)) =
        (cur, k + blen body, charIndicesFrom (k + blen body + 1) cs)) ∧
    (∀ (c : Char) (cs : List Char) (cur dflt k : Nat),
      scanQuoted cur dflt (charIndicesFrom k ('\\' :: c :: cs)) =
        scanQuoted cur dflt (charIndicesFrom (k + 1 + csize c) cs)) ∧
    parse_logfmt ("k=\"a\\x\"".toList) =
      some { dt := none, level := none, name := none,
             message := "k=\"a\\x\"".toList, platform := none, ext := none,
             data := [("k".toList, .String ("a\\x".toList))] } :=
  ⟨scanValue_unquoted, scanValue_quote, scanQuoted_body, scanQuoted_escape, by decide⟩

/-- Witness for `c5_value_reading` (first conjunct) at the value text
`ab` followed by a space and `z`, starting at byte 2. -/
theorem c5_value_reading_witness :
    (∀ c ∈ "ab".toList, c ≠ ' ' ∧ c ≠ '"') ∧
    scanValue 0 9 (charIndicesFrom 2 ("ab".toList ++ ' ' :: "z".toList)) =
      (0, 2 + blen "ab".toList, charIndicesFrom (2 + blen "ab".toList + 1) "z".toList) :=
  ⟨by decide, c5_value_reading.1 "ab".toList "z".toList 0 9 2 (by decide)⟩

/-! ### Byte-arithmetic lemmas for the phase-1/phase-2 invariants -/

theorem csize_pos (c : Char) : 0 < csize c := by
  unfold csize
  split
  · exact Nat.one_pos
  · split
    · exact Nat.zero_lt_two
    · split
      · exact Nat.zero_lt_succ _
      · exact Nat.zero_lt_succ _

theorem blen_append : ∀ (u v : List Char), blen (u ++ v) = blen u + blen v := by
  intro u v
  induction u with
  | nil => simp [blen]
  | cons c u ih => simp [blen, ih, Nat.add_assoc]

theorem charIndicesFrom_length : ∀ (cs : List Char) (k : Nat),
    (charIndicesFrom k cs).length = cs.length := by
  intro cs
  induction cs with
  | nil => intro k; rfl
  | cons c cs ih => intro k; simp [charIndicesFrom, ih]

theorem isBoundaryAux_add : ∀ (pre cs : List Char) (k0 : Nat),
    isBoundaryAux (k0 + blen pre) k0 (pre ++ cs) = true := by
  intro pre
  induction pre with
  | nil =>
    intro cs k0
    cases cs <;> simp [isBoundaryAux, blen]
  | cons c pre ih =>
    intro cs k0
    have h := ih cs (k0 + csize c)
    simp only [List.cons_append, isBoundaryAux, blen, List.append_eq]
    rw [show k0 + (csize c + blen pre) = k0 + csize c + blen pre by omega]
    rw [h]
    simp

theorem isBoundary_prefix (pre cs : List Char) :
    isBoundary (pre ++ cs) (blen pre) = true := by
  have := isBoundaryAux_add pre cs 0
  rw [Nat.zero_add] at this
  exact this

theorem isBoundary_zero (l : List Char) : isBoundary l 0 = true :=
  isBoundary_prefix [] l

theorem takeBytes_append (pre : List Char) : ∀ (cs : List Char) (e : Nat),
    blen pre ≤ e → takeBytes (pre ++ cs) e = pre ++ takeBytes cs (e - blen pre) := by
  induction pre with
  | nil => intro cs e _; simp [blen]
  | cons c pre ih =>
    intro cs e he
    have hcs := csize_pos c
    simp only [blen] at he
    cases e with
    | zero => omega
    | succ e =>
      simp only [List.cons_append, takeBytes, List.append_eq]
      rw [ih cs (e + 1 - csize c) (by omega)]
      simp only [blen, List.cons_append]
      congr 3
      omega

theorem sliceAux_skip (a b : Nat) : ∀ (u rest : List Char) (k : Nat),
    k + blen u ≤ a → sliceAux a b k (u ++ rest) = sliceAux a b (k + blen u) rest := by
  intro u
  induction u with
  | nil => intro rest k _; simp [blen]
  | cons c u ih =>
    intro rest k h
    have hcs := csize_pos c
    simp only [blen] at h
    simp only [List.cons_append, sliceAux, if_pos (show k < a by omega), List.append_eq]
    rw [ih rest (k + csize c) (by omega)]
    congr 1
    simp [blen]
    omega

theorem sliceAux_take (a : Nat) : ∀ (t v : List Char) (k : Nat),
    a ≤ k → sliceAux a (k + blen t) k (t ++ v) = t := by
  intro t
  induction t with
  | nil =>
    intro v k h
    cases v with
    | nil => simp [sliceAux]
    | cons c cs => simp [sliceAux, blen, if_neg (show ¬k < a by omega)]
  | cons c t ih =>
    intro v k h
    have hcs := csize_pos c
    simp only [List.cons_append, sliceAux, if_neg (show ¬k < a by omega), blen,
      List.append_eq]
    rw [if_pos (show k < k + (csize c + blen t) by omega)]
    rw [show k + (csize c + blen t) = (k + csize c) + blen t by omega]
    rw [ih v (k + csize c) (by omega)]

theorem sliceBytes_exact (pre t v : List Char) :
    sliceBytes (pre ++ t ++ v) (blen pre) (blen pre + blen t) = t := by
  unfold sliceBytes
  rw [List.append_assoc]
  rw [sliceAux_skip _ _ pre (t ++ v) 0 (by omega)]
  rw [Nat.zero_add]
  exact sliceAux_take _ t v (blen pre) (Nat.le_refl _)

/-! ### Phase-1 lemmas -/

theorem phase1_cons (line : List Char) (st : P1State) (i : Nat) (c : Char)
    (rest : List (Nat × Char)) :
    phase1 line st ((i, c) :: rest) =
      if c = '=' then (st, (i, c) :: rest)
      else
        let atColon := c = ':' && (match rest with
          | (_, c2) :: _ => c2 = ' '
          | [] => false)
        let st' := if c = ' ' || atColon then classify line st i else st
        if atColon then
          ({ st' with msgStart :=
              if 0 < st'.msgStart then st'.msgStart + 1 else st'.msgStart }, rest)
        else phase1 line st' rest := by
  rw [phase1.eq_def]

theorem phase1_skipChars (line : List Char) : ∀ (t rest0 : List Char) (k : Nat) (st : P1State),
    (∀ c ∈ t, c ≠ ' ' ∧ c ≠ '=' ∧ c ≠ ':') →
    phase1 line st (charIndicesFrom k (t ++ rest0)) =
      phase1 line st (charIndicesFrom (k + blen t) rest0) := by
  intro t
  induction t with
  | nil => intro rest0 k st _; simp [blen]
  | cons c t ih =>
    intro rest0 k st h
    have hc := h c (List.mem_cons_self _ _)
    have hk : k + blen (c :: t) = (k + csize c) + blen t := by
      simp only [blen]
      omega
    rw [List.cons_append, charIndicesFrom_cons, phase1_cons, if_neg hc.2.1, hk]
    simp only [decide_eq_false hc.2.2, Bool.false_and, decide_eq_false hc.1,
      Bool.false_or, Bool.false_eq_true, if_false]
    exact ih rest0 (k + csize c) st (fun x hx => h x (List.mem_cons_of_mem _ hx))

theorem phase1_space (line : List Char) (rest0 : List Char) (k : Nat) (st : P1State) :
    phase1 line st (charIndicesFrom k (' ' :: rest0)) =
      phase1 line (classify line st k) (charIndicesFrom (k + 1) rest0) := by
  rw [charIndicesFrom_cons, phase1_cons, if_neg (by decide)]
  simp only [show decide (' ' = ':') = false by decide, Bool.false_and,
    show decide (' ' = ' ') = true by decide, decide_True, Bool.true_or,
    Bool.false_eq_true, if_false, if_true, show csize ' ' = 1 by decide]

theorem classify_ordinary (line : List Char) (st : P1State) (i : Nat)
    (h1 : sliceBytes line st.curToken i ∉ severityWords)
    (h2 : (sliceBytes line st.curToken i).any (fun c => c = '.' ∨ c = ':') = false) :
    classify line st i = { st with curToken := i + 1 } := by
  simp only [classify, if_neg h1, h2, Bool.false_eq_true, if_false]

theorem classify_severity (line : List Char) (st : P1State) (i : Nat)
    (h1 : sliceBytes line st.curToken i ∈ severityWords)
    (h2 : st.level = none)
    (h3 : ¬st.curToken = st.msgStart) :
    classify line st i =
      { st with level := some (sliceBytes line st.curToken i), curToken := i + 1 } := by
  simp only [classify, if_pos h1, if_pos h2, if_neg h3]

theorem classify_inv (line : List Char) (st : P1State) (i : Nat)
    (h0 : st.msgStart = 0) (h1 : st.curToken ≠ 0) :
    (classify line st i).msgStart = 0 ∧ (classify line st i).curToken = i + 1 ∧
      (∀ x, st.level = some x → (classify line st i).level = some x) := by
  have hne : ¬st.curToken = st.msgStart := by rw [h0]; exact h1
  by_cases hsev : sliceBytes line st.curToken i ∈ severityWords
  · by_cases hlev : st.level = none
    · rw [classify_severity line st i hsev hlev hne]
      refine ⟨h0, rfl, ?_⟩
      intro x hx
      rw [hlev] at hx
      cases hx
    · have hc : classify line st i = { st with curToken := i + 1 } := by
        simp only [classify, if_pos hsev, if_neg hlev, if_neg hne]
      rw [hc]
      exact ⟨h0, rfl, fun x hx => hx⟩
  · by_cases hdot : (sliceBytes line st.curToken i).any (fun c => c = '.' ∨ c = ':') = true
    · have hc : classify line st i = { st with curToken := i + 1 } := by
        simp only [classify, if_neg hsev, hdot, if_true, if_neg hne]
      rw [hc]
      exact ⟨h0, rfl, fun x hx => hx⟩
    · have hdot2 : (sliceBytes line st.curToken i).any (fun c => c = '.' ∨ c = ':') = false := by
        cases hb : (sliceBytes line st.curToken i).any (fun c => c = '.' ∨ c = ':')
        · rfl
        · exact absurd hb hdot
      rw [classify_ordinary line st i hsev hdot2]
      exact ⟨h0, rfl, fun x hx => hx⟩

/-- Once the message-start cursor is 0 while the token cursor is
positive, phase 1 can no longer move the message start (the contiguity
rule fails forever), the recorded level is never dropped, the token
cursor only advances, and the unconsumed iterator keeps the
byte-suffix shape. -/
theorem phase1_tail_inv (line : List Char) : ∀ (cs : List Char) (k : Nat) (st : P1State),
    (∃ pre, line = pre ++ cs ∧ blen pre = k) →
    st.msgStart = 0 → 0 < st.curToken → st.curToken ≤ k + 1 →
    (isBoundary line (st.curToken - 1) = true ∨ blen line ≤ st.curToken - 1) →
    ∃ st2 k2 cs2,
      phase1 line st (charIndicesFrom k cs) = (st2, charIndicesFrom k2 cs2) ∧
      (∃ pre2, line = pre2 ++ cs2 ∧ blen pre2 = k2) ∧
      st2.msgStart = 0 ∧ 0 < st2.curToken ∧ st2.curToken ≤ k2 + 1 ∧
      st.curToken ≤ st2.curToken ∧
      (isBoundary line (st2.curToken - 1) = true ∨ blen line ≤ st2.curToken - 1) ∧
      (∀ x, st.level = some x → st2.level = some x) := by
  intro cs
  induction cs with
  | nil =>
    intro k st hsh h0 hpos hle hbd
    exact ⟨st, k, [], rfl, hsh, h0, hpos, hle, Nat.le_refl _, hbd, fun x hx => hx⟩
  | cons c cs ih =>
    intro k st hsh h0 hpos hle hbd
    obtain ⟨pre, hline, hpre⟩ := hsh
    have hsh' : ∃ pre2, line = pre2 ++ cs ∧ blen pre2 = k + csize c :=
      ⟨pre ++ [c], by rw [hline]; simp, by rw [blen_append]; simp [blen]; omega⟩
    have hbk : isBoundary line k = true := by
      rw [hline, ← hpre]
      exact isBoundary_prefix pre (c :: cs)
    by_cases hceq : c = '='
    · subst hceq
      refine ⟨st, k, '=' :: cs, ?_, ⟨pre, hline, hpre⟩, h0, hpos, hle, Nat.le_refl _, hbd,
        fun x hx => hx⟩
      rw [charIndicesFrom_cons, phase1_cons, if_pos rfl]
    · by_cases hcsp : c = ' '
      · subst hcsp
        rw [phase1_space]
        obtain ⟨g0, gtok, glev⟩ := classify_inv line st k h0 (by omega)
        obtain ⟨st2, k2, cs2, heq, hsh2, p0, ppos, ple, pmono, pbd, plev⟩ :=
          ih (k + 1) (classify line st k)
            (by simpa [show csize ' ' = 1 by decide] using hsh')
            g0 (by omega) (by omega) (by rw [gtok]; simpa using Or.inl hbk)
        exact ⟨st2, k2, cs2, heq, hsh2, p0, ppos, ple, by omega, pbd,
          fun x hx => plev x (glev x hx)⟩
      · rcases cs with _ | ⟨c2, cs'⟩
        · refine ⟨st, k + csize c, [], ?_, hsh', h0, hpos,
            (by have := csize_pos c; omega), Nat.le_refl _, hbd, fun x hx => hx⟩
          rw [charIndicesFrom_cons, phase1_cons, if_neg hceq]
          simp [charIndicesFrom, decide_eq_false hcsp, phase1]
        · by_cases hatc : c = ':' ∧ c2 = ' '
          · obtain ⟨hc1, hc2⟩ := hatc
            subst hc1
            subst hc2
            obtain ⟨g0, gtok, glev⟩ := classify_inv line st k h0 (by omega)
            refine ⟨{ classify line st k with msgStart := 0 }, k + 1, ' ' :: cs', ?_,
              (by simpa [show csize ':' = 1 by decide] using hsh'), rfl, ?_, ?_, ?_, ?_,
              fun x hx => glev x hx⟩
            · rw [charIndicesFrom_cons, phase1_cons, if_neg hceq, charIndicesFrom_cons]
              simp only [show csize ':' = 1 by decide, decide_True, Bool.true_and,
                show decide (':' = ' ') = false by decide, Bool.false_or, if_true, g0]
              simp [charIndicesFrom_cons, show csize ' ' = 1 by decide]
            · show 0 < (classify line st k).curToken
              omega
            · show (classify line st k).curToken ≤ (k + 1) + 1
              omega
            · show st.curToken ≤ (classify line st k).curToken
              omega
            · show isBoundary line ((classify line st k).curToken - 1) = true ∨
                blen line ≤ (classify line st k).curToken - 1
              rw [gtok]
              simpa using Or.inl hbk
          · have hfalse : (decide (c = ':') && decide (c2 = ' ')) = false := by
              by_cases h1 : c = ':' <;> by_cases h2 : c2 = ' ' <;>
                simp_all
            have step : phase1 line st (charIndicesFrom k (c :: c2 :: cs')) =
                phase1 line st (charIndicesFrom (k + csize c) (c2 :: cs')) := by
              rw [charIndicesFrom_cons, phase1_cons, if_neg hceq, charIndicesFrom_cons]
              simp only [hfalse, decide_eq_false hcsp, Bool.false_or, Bool.false_eq_true,
                if_false, charIndicesFrom_cons]
            rw [step]
            exact ih (k + csize c) st hsh' h0 hpos (by have := csize_pos c; omega) hbd

/-! ### Phase-2 shape lemmas -/

/-- The quoted-value loop keeps the byte-suffix shape of the iterator,
and the value end it reports is a char boundary of the line (or the
line length), no earlier than one byte before the point where the scan
started. -/
theorem scanQuoted_shape (line : List Char) : ∀ (n : Nat) (cs : List Char) (k cur : Nat),
    cs.length ≤ n →
    (∃ pre, line = pre ++ cs ∧ blen pre = k) →
    ∃ e k2 cs2,
      scanQuoted cur (blen line) (charIndicesFrom k cs) = (cur, e, charIndicesFrom k2 cs2) ∧
      (∃ pre2, line = pre2 ++ cs2 ∧ blen pre2 = k2) ∧
      (isBoundary line e = true ∨ blen line ≤ e) ∧
      k ≤ e + 1 ∧ k ≤ k2 ∧ cs2.length ≤ cs.length := by
  intro n
  induction n with
  | zero =>
    intro cs k cur hlen hsh
    rcases cs with _ | ⟨c, cs⟩
    · refine ⟨blen line, k, [], rfl, hsh, Or.inr (Nat.le_refl _), ?_, Nat.le_refl _,
        Nat.le_refl _⟩
      obtain ⟨pre, hline, hpre⟩ := hsh
      have : blen line = k := by rw [hline, blen_append, ← hpre]; simp [blen]
      omega
    · simp at hlen
  | succ n ihn =>
    intro cs k cur hlen hsh
    obtain ⟨pre, hline, hpre⟩ := hsh
    rcases cs with _ | ⟨c, cs⟩
    · refine ⟨blen line, k, [], rfl, ⟨pre, hline, hpre⟩, Or.inr (Nat.le_refl _), ?_,
        Nat.le_refl _, Nat.le_refl _⟩
      have : blen line = k := by rw [hline, blen_append, ← hpre]; simp [blen]
      omega
    · have hbk : isBoundary line k = true := by
        rw [hline, ← hpre]
        exact isBoundary_prefix pre (c :: cs)
      by_cases hbs : c = '\\'
      · subst hbs
        rcases cs with _ | ⟨c2, cs'⟩
        · refine ⟨blen line, k + 1, [], ?_, ?_, Or.inr (Nat.le_refl _), ?_, ?_, by simp⟩
          · rw [charIndicesFrom_cons, scanQuoted_cons, if_pos rfl]
            rfl
          · exact ⟨pre ++ ['\\'], by rw [hline]; simp,
              by rw [blen_append, hpre]; simp [blen, show csize '\\' = 1 by decide]⟩
          · have h2 : blen line = k + 1 := by
              rw [hline, blen_append, hpre]
              simp [blen, show csize '\\' = 1 by decide]
            omega
          · omega
        · obtain ⟨e, k2, cs2, heq, hsh2, hbde, hek, hkk, hlen2⟩ :=
            ihn cs' (k + 1 + csize c2) cur (by simp only [List.length_cons] at hlen; omega)
              ⟨pre ++ ['\\', c2], by rw [hline]; simp,
                by rw [blen_append, hpre]; simp [blen, show csize '\\' = 1 by decide]; omega⟩
          refine ⟨e, k2, cs2, ?_, hsh2, hbde, by omega, by omega,
            by simp only [List.length_cons]; omega⟩
          rw [scanQuoted_escape]
          exact heq
      · by_cases hq : c = '"'
        · subst hq
          refine ⟨k, k + 1, cs, ?_, ?_, Or.inl hbk, by omega, by omega, by simp⟩
          · rw [charIndicesFrom_cons, scanQuoted_cons, if_neg hbs, if_pos rfl,
              show csize '"' = 1 by decide]
          · exact ⟨pre ++ ['"'], by rw [hline]; simp,
              by rw [blen_append, hpre]; simp [blen, show csize '"' = 1 by decide]⟩
        · obtain ⟨e, k2, cs2, heq, hsh2, hbde, hek, hkk, hlen2⟩ :=
            ihn cs (k + csize c) cur (by simp only [List.length_cons] at hlen; omega)
              ⟨pre ++ [c], by rw [hline]; simp,
                by rw [blen_append, hpre]; simp [blen]⟩
          have hcp := csize_pos c
          refine ⟨e, k2, cs2, ?_, hsh2, hbde, by omega, by omega,
            by simp only [List.length_cons]; omega⟩
          rw [charIndicesFrom_cons, scanQuoted_cons, if_neg hbs, if_neg hq]
          exact heq

/-- The value loop of phase 2 keeps the byte-suffix shape of the
iterator and reports a boundary (or line-length) value end no earlier
than one byte before the scan start. -/
theorem scanValue_shape (line : List Char) : ∀ (cs : List Char) (k cur : Nat),
    (∃ pre, line = pre ++ cs ∧ blen pre = k) →
    ∃ cur2 e k2 cs2,
      scanValue cur (blen line) (charIndicesFrom k cs) = (cur2, e, charIndicesFrom k2 cs2) ∧
      (∃ pre2, line = pre2 ++ cs2 ∧ blen pre2 = k2) ∧
      (isBoundary line e = true ∨ blen line ≤ e) ∧
      k ≤ e + 1 ∧ k ≤ k2 ∧ cs2.length ≤ cs.length := by
  intro cs
  induction cs with
  | nil =>
    intro k cur hsh
    refine ⟨cur, blen line, k, [], rfl, hsh, Or.inr (Nat.le_refl _), ?_, Nat.le_refl _,
      Nat.le_refl _⟩
    obtain ⟨pre, hline, hpre⟩ := hsh
    have : blen line = k := by rw [hline, blen_append, ← hpre]; simp [blen]
    omega
  | cons c cs ih =>
    intro k cur hsh
    obtain ⟨pre, hline, hpre⟩ := hsh
    have hbk : isBoundary line k = true := by
      rw [hline, ← hpre]
      exact isBoundary_prefix pre (c :: cs)
    by_cases hsp : c = ' '
    · subst hsp
      refine ⟨cur, k, k + 1, cs, ?_, ?_, Or.inl hbk, by omega, by omega, by simp⟩
      · rw [charIndicesFrom_cons, scanValue_cons, if_pos rfl, show csize ' ' = 1 by decide]
      · exact ⟨pre ++ [' '], by rw [hline]; simp,
          by rw [blen_append, hpre]; simp [blen, show csize ' ' = 1 by decide]⟩
    · by_cases hq : c = '"'
      · subst hq
        obtain ⟨e, k2, cs2, heq, hsh2, hbde, hek, hkk, hlen2⟩ :=
          scanQuoted_shape line cs.length cs (k + 1) (k + 1) (Nat.le_refl _)
            ⟨pre ++ ['"'], by rw [hline]; simp,
              by rw [blen_append, hpre]; simp [blen, show csize '"' = 1 by decide]⟩
        refine ⟨k + 1, e, k2, cs2, ?_, hsh2, hbde, by omega, by omega,
          by simp only [List.length_cons]; omega⟩
        rw [charIndicesFrom_cons, scanValue_cons, if_neg hsp, if_pos rfl,
          show csize '"' = 1 by decide]
        exact heq
      · obtain ⟨cur2, e, k2, cs2, heq, hsh2, hbde, hek, hkk, hlen2⟩ :=
          ih (k + csize c) cur
            ⟨pre ++ [c], by rw [hline]; simp, by rw [blen_append, hpre]; simp [blen]⟩
        have hcp := csize_pos c
        refine ⟨cur2, e, k2, cs2, ?_, hsh2, hbde, by omega, by omega,
          by simp only [List.length_cons]; omega⟩
        rw [charIndicesFrom_cons, scanValue_cons, if_neg hsp, if_neg hq]
        exact heq

theorem phase2Fuel_cons (line : List Char) (f : Nat) (st : P2State) (i : Nat) (c : Char)
    (rest : List (Nat × Char)) :
    phase2Fuel line (f + 1) st ((i, c) :: rest) =
      if c = ' ' then
        phase2Fuel line f { st with msgEnd := none, curToken := i + 1 } rest
      else if c = '=' then
        let st1 := if st.msgEnd = none ∧ 0 < st.curToken then
            { st with msgEnd := some (st.curToken - 1) } else st
        let key := sliceBytes line st1.curToken i
        let r := scanValue (i + 1) (blen line) rest
        let value := sliceBytes line r.1 r.2.1
        phase2Fuel line f { data := hmInsert key (coerce value) st1.data,
                            msgEnd := st1.msgEnd, curToken := r.2.1 + 1 } r.2.2
      else phase2Fuel line f st rest := rfl

/-- Every message-end marker value that phase 2 can leave set is at
least `B - 1` and is a char boundary of the line (or at/past its end),
provided the scan starts past byte `B - 1` of the line with a cursor
at least `B` whose predecessor is a boundary. -/
theorem phase2Fuel_bound (line : List Char) (B : Nat) :
    ∀ (f : Nat) (cs : List Char) (k : Nat) (st : P2State),
      cs.length ≤ f →
      (∃ pre, line = pre ++ cs ∧ blen pre = k) →
      B ≤ k + 1 →
      B ≤ st.curToken →
      (isBoundary line (st.curToken - 1) = true ∨ blen line ≤ st.curToken - 1) →
      (∀ e, st.msgEnd = some e →
        B - 1 ≤ e ∧ (isBoundary line e = true ∨ blen line ≤ e)) →
      ∀ e, (phase2Fuel line f st (charIndicesFrom k cs)).msgEnd = some e →
        B - 1 ≤ e ∧ (isBoundary line e = true ∨ blen line ≤ e) := by
  intro f
  induction f with
  | zero =>
    intro cs k st hlen hsh hBk hBc hbd hm
    rcases cs with _ | ⟨c, cs⟩
    · exact hm
    · exact hm
  | succ f ih =>
    intro cs k st hlen hsh hBk hBc hbd hm
    rcases cs with _ | ⟨c, cs⟩
    · exact hm
    · obtain ⟨pre, hline, hpre⟩ := hsh
      have hbk : isBoundary line k = true := by
        rw [hline, ← hpre]
        exact isBoundary_prefix pre (c :: cs)
      rw [charIndicesFrom_cons, phase2Fuel_cons]
      by_cases hsp : c = ' '
      · rw [if_pos hsp]
        exact ih cs (k + csize c)
          { st with msgEnd := none, curToken := k + 1 }
          (by simp only [List.length_cons] at hlen; omega)
          ⟨pre ++ [c], by rw [hline]; simp, by rw [blen_append, hpre]; simp [blen]⟩
          (by have := csize_pos c; omega)
          (by simp; omega)
          (by simpa using Or.inl hbk)
          (by intro e he; cases he)
      · by_cases heqc : c = '='
        · rw [if_neg hsp, if_pos heqc]
          subst heqc
          obtain ⟨cur2, e', k2, cs2, hveq, hsh2, hbde, hek, hkk, hlen2⟩ :=
            scanValue_shape line cs (k + 1) (k + 1)
              ⟨pre ++ ['='], by rw [hline]; simp,
                by rw [blen_append, hpre]; simp [blen, show csize '=' = 1 by decide]⟩
          simp only [show csize '=' = 1 by decide, hveq]
          have hm1 : ∀ e, (if st.msgEnd = none ∧ 0 < st.curToken then
              { st with msgEnd := some (st.curToken - 1) } else st).msgEnd = some e →
              B - 1 ≤ e ∧ (isBoundary line e = true ∨ blen line ≤ e) := by
            intro e he
            split at he
            · simp only [Option.some_inj] at he
              subst he
              exact ⟨by omega, hbd⟩
            · exact hm e he
          refine ih cs2 k2 _ ?_ hsh2 ?_ ?_ ?_ ?_
          · simp only [List.length_cons] at hlen
            omega
          · omega
          · show B ≤ e' + 1
            omega
          · show isBoundary line (e' + 1 - 1) = true ∨ blen line ≤ e' + 1 - 1
            simpa using hbde
          · exact hm1
        · rw [if_neg hsp, if_neg heqc]
          exact ih cs (k + csize c) st
            (by simp only [List.length_cons] at hlen; omega)
            ⟨pre ++ [c], by rw [hline]; simp, by rw [blen_append, hpre]; simp [blen]⟩
            (by have := csize_pos c; omega)
            hBc hbd hm

theorem severityWords_chars :
    ∀ s ∈ severityWords, ∀ c ∈ s, c ≠ ' ' ∧ c ≠ '=' ∧ c ≠ ':' := by decide

/-- C10: when the first space-delimited token `w` is ordinary (not a
severity word, no `.`/`:`/`=`/space in it) and a later space-terminated
token equals a severity word before any `=`, `parse_logfmt` still
records that token as the severity while leaving it inside the residual
message: the contiguity rule only blocks cursor advancement, not
severity recording.  The run always completes, the level is the
severity word, and the residual message starts with
`w ++ " " ++ sev`. -/
theorem c10_late_severity_recorded (w sev rest : List Char)
    (hsev : sev ∈ severityWords)
    (hw : ∀ c ∈ w, c ≠ ' ' ∧ c ≠ '=' ∧ c ≠ ':' ∧ c ≠ '.')
    (hwsev : w ∉ severityWords) :
    ∃ t r, parse_logfmt (w ++ ' ' :: sev ++ ' ' :: rest) = some r ∧
      r.level = some sev ∧ r.message = w ++ ' ' :: sev ++ t := by
  have hwchars : ∀ c ∈ w, c ≠ ' ' ∧ c ≠ '=' ∧ c ≠ ':' :=
    fun c hc => ⟨(hw c hc).1, (hw c hc).2.1, (hw c hc).2.2.1⟩
  have hsevchars : ∀ c ∈ sev, c ≠ ' ' ∧ c ≠ '=' ∧ c ≠ ':' := severityWords_chars sev hsev
  have hany : (w.any (fun c => c = '.' ∨ c = ':')) = false := by
    rw [Bool.eq_false_iff]
    intro hab
    rw [List.any_eq_true] at hab
    obtain ⟨c, hc, hp⟩ := hab
    have hcw := hw c hc
    rcases of_decide_eq_true hp with h | h
    · exact hcw.2.2.2 h
    · exact hcw.2.2.1 h
  rw [show (w ++ ' ' :: sev ++ ' ' :: rest) = w ++ ' ' :: (sev ++ ' ' :: rest) from by simp]
  have hslw : sliceBytes (w ++ ' ' :: (sev ++ ' ' :: rest)) 0 (blen w) = w := by
    have h := sliceBytes_exact [] w (' ' :: (sev ++ ' ' :: rest))
    simpa [blen] using h
  have hblenw : blen (w ++ [' ']) = blen w + 1 := by
    rw [blen_append]
    simp [blen, show csize ' ' = 1 by decide]
  have hsls : sliceBytes (w ++ ' ' :: (sev ++ ' ' :: rest)) (blen w + 1)
      (blen w + 1 + blen sev) = sev := by
    have h := sliceBytes_exact (w ++ [' ']) sev (' ' :: rest)
    rw [show (w ++ [' ']) ++ sev ++ (' ' :: rest) = w ++ ' ' :: (sev ++ ' ' :: rest) from by
      simp] at h
    rw [hblenw] at h
    exact h
  have hcl1 : classify (w ++ ' ' :: (sev ++ ' ' :: rest)) ⟨none, none, 0, 0⟩ (blen w) =
      ⟨none, none, 0, blen w + 1⟩ := by
    rw [classify_ordinary _ _ _
      (by show sliceBytes _ 0 (blen w) ∉ severityWords; rw [hslw]; exact hwsev)
      (by show (sliceBytes _ 0 (blen w)).any _ = false; rw [hslw]; exact hany)]
  have hcl2 : classify (w ++ ' ' :: (sev ++ ' ' :: rest)) ⟨none, none, 0, blen w + 1⟩
      (blen w + 1 + blen sev) =
      ⟨some sev, none, 0, blen w + 1 + blen sev + 1⟩ := by
    rw [classify_severity _ _ _
      (by show sliceBytes _ (blen w + 1) _ ∈ severityWords; rw [hsls]; exact hsev)
      rfl
      (by show ¬blen w + 1 = 0; omega)]
    dsimp only
    rw [hsls]
  have hchain : phase1 (w ++ ' ' :: (sev ++ ' ' :: rest)) ⟨none, none, 0, 0⟩
      (charIndicesFrom 0 (w ++ ' ' :: (sev ++ ' ' :: rest))) =
      phase1 (w ++ ' ' :: (sev ++ ' ' :: rest))
        ⟨some sev, none, 0, blen w + 1 + blen sev + 1⟩
        (charIndicesFrom (blen w + 1 + blen sev + 1) rest) := by
    have h1 := phase1_skipChars (w ++ ' ' :: (sev ++ ' ' :: rest)) w
      (' ' :: (sev ++ ' ' :: rest)) 0 ⟨none, none, 0, 0⟩ hwchars
    rw [Nat.zero_add] at h1
    have h2 := phase1_space (w ++ ' ' :: (sev ++ ' ' :: rest)) (sev ++ ' ' :: rest)
      (blen w) ⟨none, none, 0, 0⟩
    rw [hcl1] at h2
    have h3 := phase1_skipChars (w ++ ' ' :: (sev ++ ' ' :: rest)) sev (' ' :: rest)
      (blen w + 1) ⟨none, none, 0, blen w + 1⟩ hsevchars
    have h4 := phase1_space (w ++ ' ' :: (sev ++ ' ' :: rest)) rest
      (blen w + 1 + blen sev) ⟨none, none, 0, blen w + 1⟩
    rw [hcl2] at h4
    exact (h1.trans h2).trans (h3.trans h4)
  have hbd0 : isBoundary (w ++ ' ' :: (sev ++ ' ' :: rest))
      (blen w + 1 + blen sev + 1 - 1) = true := by
    have h := isBoundary_prefix (w ++ ' ' :: sev) (' ' :: rest)
    rw [show (w ++ ' ' :: sev) ++ (' ' :: rest) = w ++ ' ' :: (sev ++ ' ' :: rest) from by
        simp,
      show blen (w ++ ' ' :: sev) = blen w + 1 + blen sev + 1 - 1 from by
        rw [blen_append]; simp [blen, show csize ' ' = 1 by decide]; omega] at h
    exact h
  obtain ⟨st3, k2, cs2, heq3, hsh3, h30, h3pos, h3le, h3mono, h3bd, h3lev⟩ :=
    phase1_tail_inv (w ++ ' ' :: (sev ++ ' ' :: rest)) rest
      (blen w + 1 + blen sev + 1) ⟨some sev, none, 0, blen w + 1 + blen sev + 1⟩
      ⟨w ++ ' ' :: sev ++ [' '], by simp,
        by rw [blen_append, blen_append]; simp [blen, show csize ' ' = 1 by decide]; omega⟩
      rfl
      (by show (0 : Nat) < blen w + 1 + blen sev + 1; omega)
      (by show blen w + 1 + blen sev + 1 ≤ blen w + 1 + blen sev + 1 + 1; omega)
      (Or.inl hbd0)
  have hlev3 : st3.level = some sev := h3lev sev rfl
  have hmsg3 : st3.msgStart = 0 := h30
  have hmono2 : blen w + 1 + blen sev + 1 ≤ st3.curToken := h3mono
  have hph : phase1 (w ++ ' ' :: (sev ++ ' ' :: rest)) ⟨none, none, 0, 0⟩
      (charIndicesFrom 0 (w ++ ' ' :: (sev ++ ' ' :: rest))) =
      (st3, charIndicesFrom k2 cs2) := hchain.trans heq3
  have hmE := phase2Fuel_bound (w ++ ' ' :: (sev ++ ' ' :: rest))
    (blen w + 1 + blen sev + 1) (charIndicesFrom k2 cs2).length cs2 k2
    { data := [], msgEnd := none, curToken := st3.curToken }
    (by rw [charIndicesFrom_length])
    hsh3 (by omega) hmono2
    h3bd (by intro e he; cases he)
  have hblen2 : blen (w ++ ' ' :: sev) = blen w + 1 + blen sev := by
    rw [blen_append]
    simp [blen, show csize ' ' = 1 by decide]
    omega
  simp only [parse_logfmt, hph]
  rcases hE : (phase2 (w ++ ' ' :: (sev ++ ' ' :: rest))
      { data := [], msgEnd := none, curToken := st3.curToken }
      (charIndicesFrom k2 cs2)).msgEnd with _ | e
  · simp only [splitOffStr, hmsg3, isBoundary_zero, if_true, dropBytes]
    exact ⟨' ' :: rest, _, rfl, hlev3, by simp⟩
  · obtain ⟨hBe, hbnd⟩ := hmE e hE
    by_cases hbig : blen (w ++ ' ' :: (sev ++ ' ' :: rest)) ≤ e
    · simp only [truncateStr, if_pos hbig]
      simp only [splitOffStr, hmsg3, isBoundary_zero, if_true, dropBytes]
      exact ⟨' ' :: rest, _, rfl, hlev3, by simp⟩
    · have hbound : isBoundary (w ++ ' ' :: (sev ++ ' ' :: rest)) e = true :=
        hbnd.resolve_right hbig
      simp only [truncateStr, if_neg hbig, hbound, if_true]
      simp only [splitOffStr, hmsg3, isBoundary_zero, if_true, dropBytes]
      have htake : takeBytes (w ++ ' ' :: (sev ++ ' ' :: rest)) e =
          w ++ ' ' :: sev ++ takeBytes (' ' :: rest) (e - (blen w + 1 + blen sev)) := by
        have h := takeBytes_append (w ++ ' ' :: sev) (' ' :: rest) e
          (by rw [hblen2]; omega)
        rw [show (w ++ ' ' :: sev) ++ (' ' :: rest) = w ++ ' ' :: (sev ++ ' ' :: rest) from by
          simp] at h
        rw [hblen2] at h
        exact h
      rw [htake]
      exact ⟨takeBytes (' ' :: rest) (e - (blen w + 1 + blen sev)), _, rfl, hlev3, rfl⟩

theorem c10_late_severity_recorded_witness :
    ∃ t r,
      parse_logfmt (['x'] ++ ' ' :: "INFO".toList ++ ' ' :: "y a=1".toList) = some r ∧
      r.level = some "INFO".toList ∧ r.message = ['x'] ++ ' ' :: "INFO".toList ++ t :=
  c10_late_severity_recorded ['x'] "INFO".toList "y a=1".toList
    (by decide) (by decide) (by decide)

end Logfmt2
